import Mathlib

/-!
Shallow embedding of the `pattern-adapters` crate: the `SearchStep` protocol,
the `Range` utility (`src/utils/range.rs`), the `Or` family of combinators
(`src/logic/or.rs`), `Not` (`src/logic/not.rs`), the derived `And`/`Nor`
patterns (`src/logic/patterns.rs`), and the `Limit`, `Simplifying` (greedy
reject), `Then` and stateful `Char` adapters (`src/adapters/*.rs`).

Haystacks are modelled as `List Char` with byte positions equal to character
indices (all concrete inputs below are ASCII).  A searcher that is consumed by
a combinator only through `next_match()` is represented by the list of matches
it still has to deliver; a searcher consumed through `next()` is represented
by the list of `SearchStep`s it still has to deliver (exhaustion = `[]`,
after which `Done` is returned forever, matching a well-behaved searcher).
All step functions are straight translations of the Rust `next()` bodies.
-/

set_option autoImplicit false

/-- One emitted unit of the search partition, mirroring
`core::str::pattern::SearchStep`: a matched span, a rejected span, or the
terminal `Done`. -/
inductive SearchStep where
  | Match (first last : Nat)
  | Reject (first last : Nat)
  | Done
deriving DecidableEq, Repr

/-- The half-open interval type of `src/utils/range.rs`.  The Rust struct has
private fields `start` and `end` (here `start`/`stop`, as `end` is a Lean
keyword); `From<ops::Range<usize>>` copies the raw bounds without
normalising, so `start > stop` is representable (`Range::from(6..3)`). -/
structure Range where
  start : Nat
  stop : Nat
deriving DecidableEq, Repr

/-- `Range::len`: `max(start, end) - min(start, end)`. -/
def Range.len (r : Range) : Nat :=
  max r.start r.stop - min r.start r.stop

/-- `Range::is_empty`: `len == 0`. -/
def Range.is_empty (r : Range) : Bool :=
  r.len == 0

/-- `Range::intersect`: `None` when `other.start() >= self.end()`, or
`self.start() >= other.end()`, or either range is empty; otherwise the range
from `max` of the starts to `min` of the ends. -/
def Range.intersect (r other : Range) : Option Range :=
  if other.start ≥ r.stop || r.start ≥ other.stop
      || other.is_empty || r.is_empty then
    none
  else
    some ⟨max r.start other.start, min r.stop other.stop⟩

/-- The tie-break decision type of `src/logic/or.rs`. -/
inductive ToMatch where
  | Left
  | Right
deriving DecidableEq, Repr

/-- The closure `|_, _| ToMatch::Left` used by `LOrPattern::new`. -/
def lorPolicy : Range → Range → ToMatch := fun _ _ => ToMatch.Left

/-- The closure `|_, _| ToMatch::Right` used by `ROrPattern::new`. -/
def rorPolicy : Range → Range → ToMatch := fun _ _ => ToMatch.Right

/-- The matches among a list of emitted steps, i.e. the sequence of
`next_match()` results a caller would observe. -/
def matchesOf : List SearchStep → List (Nat × Nat)
  | [] => []
  | SearchStep.Match s e :: rest => (s, e) :: matchesOf rest
  | SearchStep.Reject _ _ :: rest => matchesOf rest
  | SearchStep.Done :: rest => matchesOf rest

/-- The rejected spans among a list of emitted steps, i.e. the sequence of
`next_reject()` results a caller would observe. -/
def rejectsOf : List SearchStep → List (Nat × Nat)
  | [] => []
  | SearchStep.Match _ _ :: rest => rejectsOf rest
  | SearchStep.Reject s e :: rest => (s, e) :: rejectsOf rest
  | SearchStep.Done :: rest => rejectsOf rest

/-- The spans of a step list with the Match/Reject labels erased. -/
def spansOf : List SearchStep → List (Nat × Nat)
  | [] => []
  | SearchStep.Match s e :: rest => (s, e) :: spansOf rest
  | SearchStep.Reject s e :: rest => (s, e) :: spansOf rest
  | SearchStep.Done :: rest => spansOf rest

/-- Whether a step list is a contiguous chain of Match/Reject spans starting
at position `i`. -/
def contiguousFrom : Nat → List SearchStep → Bool
  | _, [] => true
  | i, SearchStep.Match s e :: rest => s == i && contiguousFrom e rest
  | i, SearchStep.Reject s e :: rest => s == i && contiguousFrom e rest
  | _, SearchStep.Done :: _ => false

/-- The position reached after a step list (the `end` of its last span). -/
def finalEnd : Nat → List SearchStep → Nat
  | i, [] => i
  | _, SearchStep.Match _ e :: rest => finalEnd e rest
  | _, SearchStep.Reject _ e :: rest => finalEnd e rest
  | i, SearchStep.Done :: rest => finalEnd i rest

/-- The partition invariant of the spec for a complete run over a haystack of
length `len`: steps are contiguous, start at 0 and end at `len`. -/
def partitionOk (len : Nat) (steps : List SearchStep) : Prop :=
  contiguousFrom 0 steps = true ∧ finalEnd 0 steps = len

/-- Prefix test on char lists (model of `&str::starts_with` on byte slices,
used only to describe the external literal searcher). -/
def leadsWith : List Char → List Char → Bool
  | [], _ => true
  | _ :: _, [] => false
  | a :: as, b :: bs => a == b && leadsWith as bs

/-- Fuel-indexed scan behind `strMatches`: at each position either take a
non-overlapping occurrence of the (non-empty) needle or step one character
forward.  `fuel ≥ hay.length` makes the scan complete. -/
def strMatchesGo (needle : List Char) : Nat → List Char → Nat → List (Nat × Nat)
  | 0, _, _ => []
  | _ + 1, [], _ => []
  | fuel + 1, c :: rest, i =>
    if leadsWith needle (c :: rest) && decide (0 < needle.length) then
      (i, i + needle.length)
        :: strMatchesGo needle fuel (List.drop (needle.length - 1) rest) (i + needle.length)
    else
      strMatchesGo needle fuel rest (i + 1)

/-- Model of the external `core::str::pattern` literal searcher (an assumed
correct collaborator in the spec): its `next_match()` sequence is the list of
leftmost non-overlapping occurrences of the needle; the empty needle matches
at every boundary. -/
def strMatches (needle hay : List Char) : List (Nat × Nat) :=
  if needle.length == 0 then
    (List.range (hay.length + 1)).map (fun i => (i, i))
  else
    strMatchesGo needle (hay.length + 1) hay 0

/-- The one-slot cache of `OrSearcher` remembering which child the unconsumed
match came from (`enum CachedMatch` in `src/logic/or.rs`). -/
inductive CachedMatch where
  | A (first last : Nat)
  | B (first last : Nat)
deriving DecidableEq, Repr

/-- State of `OrSearcher` (`src/logic/or.rs`).  The child searchers `a` and
`b` are consumed only through `next_match()`, so they are embedded as the
match sequences they still have to deliver. -/
structure OrSearcher where
  a : List (Nat × Nat)
  b : List (Nat × Nat)
  index : Nat
  next_match : Option (Nat × Nat)
  cached_match : Option CachedMatch
deriving DecidableEq, Repr

/-- `OrSearcher` as freshly built by `OrPattern::into_searcher`. -/
def orInit (a b : List (Nat × Nat)) : OrSearcher :=
  { a := a, b := b, index := 0, next_match := none, cached_match := none }

/-- `OrSearcher::any_step`: records the `end` of a Match/Reject in `index`
and passes the step through. -/
def orAnyStep (st : OrSearcher) (step : SearchStep) : SearchStep × OrSearcher :=
  match step with
  | SearchStep.Match _ e => (step, { st with index := e })
  | SearchStep.Reject _ e => (step, { st with index := e })
  | SearchStep.Done => (step, st)

/-- `OrSearcher::reject_to`: emit `Reject(index, end)`. -/
def orRejectTo (st : OrSearcher) (e : Nat) : SearchStep × OrSearcher :=
  orAnyStep st (SearchStep.Reject st.index e)

/-- `OrSearcher::match_step`: if the pending match starts after the cursor,
buffer it and reject the gap first; otherwise emit it.  (The release build
emits `Match(start, end)` even when `index > start`; the debug build would
fail its `debug_assert_eq!(self.index(), start)` there.) -/
def orMatchStep (st : OrSearcher) (s e : Nat) : SearchStep × OrSearcher :=
  if st.index < s then
    orRejectTo { st with next_match := some (s, e) } s
  else
    orAnyStep st (SearchStep.Match s e)

/-- Popping the head of a child's remaining `next_match()` sequence. -/
def popMatch : List (Nat × Nat) → Option (Nat × Nat) × List (Nat × Nat)
  | [] => (none, [])
  | m :: rest => (some m, rest)

/-- `OrSearcher::next_matches`: serve one side from the one-slot cache when
present, pulling the other side from its child; otherwise pull both. -/
def orNextMatches (st : OrSearcher) :
    (Option (Nat × Nat) × Option (Nat × Nat)) × OrSearcher :=
  match st.cached_match with
  | some (CachedMatch.A s e) =>
    let (bm, b') := popMatch st.b
    ((some (s, e), bm), { st with b := b', cached_match := none })
  | some (CachedMatch.B s e) =>
    let (am, a') := popMatch st.a
    ((am, some (s, e)), { st with a := a', cached_match := none })
  | none =>
    let (am, a') := popMatch st.a
    let (bm, b') := popMatch st.b
    ((am, bm), { st with a := a', b := b' })

/-- `OrSearcher::next` for a haystack of length `len`, translated clause by
clause from `src/logic/or.rs`.  The `unreachable!()` arm (equal starts
without conflict) is modelled as `Done`. -/
def orNext (f : Range → Range → ToMatch) (len : Nat) (st : OrSearcher) :
    SearchStep × OrSearcher :=
  match st.next_match with
  | some (s, e) => orAnyStep { st with next_match := none } (SearchStep.Match s e)
  | none =>
    if st.index ≥ len then
      (SearchStep.Done, st)
    else
      match orNextMatches st with
      | ((some am, some bm), st') =>
        let ra : Range := ⟨am.1, am.2⟩
        let rb : Range := ⟨bm.1, bm.2⟩
        if (ra.intersect rb).isSome || (rb.intersect ra).isSome || ra = rb then
          match f ra rb with
          | ToMatch.Left => orMatchStep st' ra.start ra.stop
          | ToMatch.Right => orMatchStep st' rb.start rb.stop
        else if ra.start < rb.start then
          orMatchStep { st' with cached_match := some (CachedMatch.B rb.start rb.stop) }
            ra.start ra.stop
        else if ra.start > rb.start then
          orMatchStep { st' with cached_match := some (CachedMatch.A ra.start ra.stop) }
            rb.start rb.stop
        else
          (SearchStep.Done, st')
      | ((some am, none), st') => orMatchStep st' am.1 am.2
      | ((none, some bm), st') => orMatchStep st' bm.1 bm.2
      | ((none, none), st') => orRejectTo st' len

/-- Repeatedly call `orNext`, collecting steps until `Done`; `none` when the
fuel ran out before `Done` was reached. -/
def orRun (f : Range → Range → ToMatch) (len : Nat) :
    Nat → OrSearcher → Option (List SearchStep)
  | 0, _ => none
  | fuel + 1, st =>
    match orNext f len st with
    | (SearchStep.Done, _) => some []
    | (step, st') => (orRun f len fuel st').map (fun l => step :: l)

/-- Claim C1: the partition invariant ("steps are contiguous, start at 0, end
at len(H)") fails on the library's own Or combinator: for the left-biased
alternation of the literal patterns "aaa" and "aa" on the haystack "aaaa",
the searcher emits `Match(0,3)` followed by `Match(2,4)`, which is not
contiguous (the second step starts before the previous end; the debug build
fails its `debug_assert_eq!(self.index(), start)` here). -/
theorem or_partition_violation :
    orRun lorPolicy 4 10
        (orInit (strMatches "aaa".toList "aaaa".toList)
          (strMatches "aa".toList "aaaa".toList))
      = some [SearchStep.Match 0 3, SearchStep.Match 2 4]
    ∧ ¬ partitionOk 4 [SearchStep.Match 0 3, SearchStep.Match 2 4] := by
  refine ⟨rfl, fun h => absurd h.1 ?_⟩
  decide

/-- Claim C2: on the haystack "abcaabbaab", the left-biased alternation of
the literal patterns "a" and "ab" emits exactly the step sequence
`Match(0,1), Reject(1,3), Match(3,4), Match(4,5), Reject(5,7), Match(7,8),
Match(8,9), Reject(9,10)` and then `Done` (the run terminating with `some`
means the next call returns `Done`). -/
theorem lor_a_ab_scenario :
    orRun lorPolicy 10 30
        (orInit (strMatches "a".toList "abcaabbaab".toList)
          (strMatches "ab".toList "abcaabbaab".toList))
      = some [SearchStep.Match 0 1, SearchStep.Reject 1 3, SearchStep.Match 3 4,
          SearchStep.Match 4 5, SearchStep.Reject 5 7, SearchStep.Match 7 8,
          SearchStep.Match 8 9, SearchStep.Reject 9 10] := by
  rfl

/-- Claim C3, counterexample: `Range::from(5..3)` is a representable range
(the doc examples construct `Range::from(6..3)`), its `len()` is `2`, so it
is non-empty in the claim's sense, yet `a.intersect(a)` is `None`, not
`Some(a)`. -/
theorem range_intersect_self_cex :
    Range.len ⟨5, 3⟩ = 2 ∧ Range.intersect ⟨5, 3⟩ ⟨5, 3⟩ = none := by
  exact ⟨rfl, rfl⟩

/-- Claim C3, amended: intersection is commutative for all ranges; a range is
its own intersection provided it is non-empty and properly ordered
(`start < end`); and the intersection is `None` exactly when one span begins
at or after the other's end or either has length zero. -/
theorem range_intersect_laws (a b : Range) :
    a.intersect b = b.intersect a
    ∧ (a.start < a.stop → a.intersect a = some a)
    ∧ (a.intersect b = none
        ↔ b.start ≥ a.stop ∨ a.start ≥ b.stop ∨ b.len = 0 ∨ a.len = 0) := by
  obtain ⟨as, ae⟩ := a
  obtain ⟨bs, be⟩ := b
  refine ⟨?_, ?_, ?_⟩
  · simp only [Range.intersect]
    split_ifs with h₁ h₂ h₂
    · rfl
    · exfalso; simp [Range.is_empty, Range.len] at h₁ h₂; omega
    · exfalso; simp [Range.is_empty, Range.len] at h₁ h₂; omega
    · simp [Nat.max_comm, Nat.min_comm]
  · intro h
    have h' : as < ae := h
    simp only [Range.intersect]
    split_ifs with h₁
    · exfalso; simp [Range.is_empty, Range.len] at h₁; omega
    · simp
  · simp only [Range.intersect]
    split_ifs with h₁ <;> simp [Range.is_empty, Range.len] at h₁ ⊢ <;> omega

/-- Witness for `range_intersect_laws` at the concrete ranges `1..3` and
`2..5`. -/
theorem range_intersect_laws_w :
    Range.intersect ⟨1, 3⟩ ⟨1, 3⟩ = some ⟨1, 3⟩ :=
  (range_intersect_laws ⟨1, 3⟩ ⟨1, 3⟩).2.1 (by decide)

/-- Claim C9, counterexample: for the empty literal pattern on the empty
haystack, the empty pattern's own searcher yields the single match `(0,0)`,
but the left-biased self-alternation returns `Done` immediately (its cursor
already sits at the haystack length), so its match sequence is empty. -/
theorem lor_self_empty_cex :
    strMatches "".toList "".toList = [(0, 0)]
    ∧ orRun lorPolicy 0 5
        (orInit (strMatches "".toList "".toList) (strMatches "".toList "".toList))
      = some []
    ∧ matchesOf [] ≠ strMatches "".toList "".toList := by
  exact ⟨rfl, rfl, by decide⟩

/-- State of the stateful character-predicate searcher `CharSearcher`
(`src/adapters/stateful.rs`).  The `FnMut(char, &mut T) -> bool` closure is
modelled state-passing; `chars`/`offset` model the `CharIndices` iterator
(its remaining characters and the absolute index of the next one). -/
structure CharSearcher (T : Type) where
  f : Char → T → Bool × T
  state : T
  chars : List Char
  offset : Nat

/-- `CharSearcher::haystack`: the source returns `self.chars.as_str()`, i.e.
the *remaining* sub-string of the `CharIndices` iterator. -/
def CharSearcher.haystack {T : Type} (cs : CharSearcher T) : List Char :=
  cs.chars

/-- `CharSearcher::next`: consume one character, classify it with the
predicate, and emit a Match/Reject of its span. -/
def charNext {T : Type} (cs : CharSearcher T) : SearchStep × CharSearcher T :=
  match cs.chars with
  | [] => (SearchStep.Done, cs)
  | c :: rest =>
    let e := cs.offset + c.utf8Size
    let (b, st') := cs.f c cs.state
    if b then
      (SearchStep.Match cs.offset e,
        { cs with chars := rest, offset := e, state := st' })
    else
      (SearchStep.Reject cs.offset e,
        { cs with chars := rest, offset := e, state := st' })

/-- The full step sequence of a `CharSearcher` (its `next()` calls until
`Done`), obtained by iterating `charNext` over the haystack. -/
def charRun {T : Type} (f : Char → T → Bool × T) : T → Nat → List Char → List SearchStep
  | _, _, [] => []
  | st, i, c :: rest =>
    let (b, st') := f c st
    (if b then SearchStep.Match i (i + c.utf8Size)
     else SearchStep.Reject i (i + c.utf8Size)) :: charRun f st' (i + c.utf8Size) rest

/-- A stateless predicate searcher for the character `'a'` bound to the
haystack "ab", fresh from `into_searcher`. -/
def sampleCharSearcher : CharSearcher Unit :=
  { f := fun c s => (c == 'a', s), state := (), chars := "ab".toList, offset := 0 }

/-- Claim C10: `haystack()` is claimed stable under `next()`, but the
stateful `CharSearcher` returns `chars.as_str()`, the shrinking remainder of
its iterator: on the haystack "ab" the accessor answers "ab" before any step
and "b" after the first `next()` (which reported `Match(0,1)`). -/
theorem char_searcher_haystack_shrinks :
    CharSearcher.haystack sampleCharSearcher = "ab".toList
    ∧ (charNext sampleCharSearcher).1 = SearchStep.Match 0 1
    ∧ CharSearcher.haystack (charNext sampleCharSearcher).2 = "b".toList
    ∧ "b".toList ≠ "ab".toList := by
  refine ⟨rfl, rfl, rfl, ?_⟩
  decide

/-- `next()` on a (double-ended) child searcher embedded as the list of steps
it still has to deliver: pop the front. -/
def frontStep (l : List SearchStep) : SearchStep × List SearchStep :=
  match l with
  | [] => (SearchStep.Done, [])
  | s :: rest => (s, rest)

/-- `next_back()` on the same embedding: pop the back (as the double-ended
`CharIndices` iterator does). -/
def backStep (l : List SearchStep) : SearchStep × List SearchStep :=
  match l.getLast? with
  | none => (SearchStep.Done, l)
  | some s => (s, l.dropLast)

/-- The Match/Reject swap performed by `NotSearcher` (`src/logic/not.rs`). -/
def swapStep : SearchStep → SearchStep
  | SearchStep.Match s e => SearchStep.Reject s e
  | SearchStep.Reject s e => SearchStep.Match s e
  | SearchStep.Done => SearchStep.Done

/-- `NotSearcher::next`: swap the child's next step. -/
def notNext (l : List SearchStep) : SearchStep × List SearchStep :=
  let (s, l') := frontStep l
  (swapStep s, l')

/-- `ReverseSearcher::next_back` for `NotSearcher` exactly as written in
`src/logic/not.rs`: the body calls `self.0.next()` — the child's *forward*
step — and swaps it. -/
def notNextBack (l : List SearchStep) : SearchStep × List SearchStep :=
  let (s, l') := frontStep l
  (swapStep s, l')

/-- Claim C6: `next_back()` on the Not wrapper is claimed to be the child's
`next_back()` with Match and Reject swapped, but the implementation consumes
the child's forward `next()`: for `not('a')` on "ab" the code returns
`Reject(0,1)` (swap of the child's first forward step `Match(0,1)`) while
the claimed result is `Match(1,2)` (swap of the child's backward step
`Reject(1,2)`). -/
theorem not_next_back_bug :
    (notNextBack (charRun (fun c s => (c == 'a', s)) () 0 "ab".toList)).1
      = SearchStep.Reject 0 1
    ∧ swapStep (backStep (charRun (fun c s => (c == 'a', s)) () 0 "ab".toList)).1
      = SearchStep.Match 1 2
    ∧ SearchStep.Reject 0 1 ≠ SearchStep.Match 1 2 := by
  refine ⟨rfl, rfl, ?_⟩
  decide

/-- The `And` searcher obtained from `src/logic/patterns.rs`:
`AndPattern(a, b)` is `NotPattern(LOrPattern(NotPattern(a), NotPattern(b)))`,
so for `P.and(P)` the Or combinator consumes the reject spans of two copies
of `P`'s searcher as its children's matches, and the resulting steps are
swapped by the outer Not. -/
def andSelfRun (ps : List SearchStep) (len fuel : Nat) : Option (List SearchStep) :=
  (orRun lorPolicy len fuel (orInit (rejectsOf ps) (rejectsOf ps))).map
    (List.map swapStep)

/-- Claim C5: `P.and(P)` is claimed to yield the same match positions as `P`
(the repo's `fuzz_and` target even asserts step equality), but for `P = 'a'`
on "aa" the `P` searcher emits `Match(0,1), Match(1,2)` while `and` emits the
single fused `Match(0,2)`: the match sequences differ. -/
theorem and_self_differs :
    charRun (fun c s => (c == 'a', s)) () 0 "aa".toList
      = [SearchStep.Match 0 1, SearchStep.Match 1 2]
    ∧ andSelfRun [SearchStep.Match 0 1, SearchStep.Match 1 2] 2 5
      = some [SearchStep.Match 0 2]
    ∧ matchesOf [SearchStep.Match 0 2]
      ≠ matchesOf [SearchStep.Match 0 1, SearchStep.Match 1 2] := by
  refine ⟨rfl, rfl, ?_⟩
  decide

/-- `LimitSearcher::next` (`src/adapters/limit.rs`) unfolded over the child's
step stream: a child Match passes through while `remaining` (`n`) is
positive, decrementing it; once `is_exhausted()` (`remaining == 0`) every
child Match is relabelled `Reject` with the same span; child Rejects pass
through; child `Done` passes through (and a well-behaved child then stays
exhausted). -/
def limitRun : List SearchStep → Nat → List SearchStep
  | [], _ => []
  | SearchStep.Match s e :: rest, n =>
    if n == 0 then SearchStep.Reject s e :: limitRun rest 0
    else SearchStep.Match s e :: limitRun rest (n - 1)
  | SearchStep.Reject s e :: rest, n => SearchStep.Reject s e :: limitRun rest n
  | SearchStep.Done :: _, _ => []

/-- A child's step stream up to its first `Done` (what a caller of a
well-behaved searcher observes). -/
def truncAtDone : List SearchStep → List SearchStep
  | [] => []
  | SearchStep.Done :: _ => []
  | s :: rest => s :: truncAtDone rest

/-- The claim's description of Limit(n), written from the spec's words: the
first `n` matches pass unchanged, every later match becomes a Reject of the
same span, and Rejects pass unchanged. -/
def limitClaimed : List SearchStep → Nat → List SearchStep
  | [], _ => []
  | SearchStep.Match s e :: rest, 0 => SearchStep.Reject s e :: limitClaimed rest 0
  | SearchStep.Match s e :: rest, n + 1 => SearchStep.Match s e :: limitClaimed rest n
  | SearchStep.Reject s e :: rest, n => SearchStep.Reject s e :: limitClaimed rest n
  | SearchStep.Done :: _, _ => []

/-- Claim C8: the Limit searcher behaves exactly as claimed: it equals the
spec-side transform (first `n` matches through, later matches relabelled
Reject with the same span, Rejects and spans untouched — the `Nat` counter
models the saturating `usize`, which the code never decrements below zero),
its match sequence is the first `n` child matches, and `Limit(P, 0)` never
emits a Match. -/
theorem limit_semantics (l : List SearchStep) (n : Nat) :
    limitRun l n = limitClaimed l n
    ∧ spansOf (limitRun l n) = spansOf (truncAtDone l)
    ∧ matchesOf (limitRun l n) = (matchesOf (truncAtDone l)).take n
    ∧ matchesOf (limitRun l 0) = [] := by
  induction l generalizing n with
  | nil => simp [limitRun, limitClaimed, truncAtDone, spansOf, matchesOf]
  | cons s rest ih =>
    cases s with
    | Match a b =>
      refine ⟨?_, ?_, ?_, ?_⟩
      · cases n with
        | zero => simp [limitRun, limitClaimed, (ih 0).1]
        | succ m => simp [limitRun, limitClaimed, (ih m).1]
      · cases n with
        | zero => simp [limitRun, truncAtDone, spansOf, (ih 0).2.1]
        | succ m => simp [limitRun, truncAtDone, spansOf, (ih m).2.1]
      · cases n with
        | zero => simp [limitRun, truncAtDone, spansOf, matchesOf, (ih 0).2.2.1]
        | succ m => simp [limitRun, truncAtDone, spansOf, matchesOf, (ih m).2.2.1]
      · simp [limitRun, matchesOf, (ih 0).2.2.2]
    | Reject a b =>
      refine ⟨?_, ?_, ?_, ?_⟩
      · simp [limitRun, limitClaimed, (ih n).1]
      · simp [limitRun, truncAtDone, spansOf, (ih n).2.1]
      · simp [limitRun, truncAtDone, matchesOf, (ih n).2.2.1]
      · simp [limitRun, matchesOf, (ih 0).2.2.2]
    | Done =>
      simp [limitRun, limitClaimed, truncAtDone, spansOf, matchesOf]

/-- State of the `SimplifyingSearcher` of `src/adapters/greedy_reject.rs`
(the variant compiled into the crate; `src/adapters/simplify.rs` is not in
the module tree).  The child is consumed only through `next_match()`, so it
is embedded as its remaining match sequence. -/
structure SimpSearcher where
  ms : List (Nat × Nat)
  index : Nat
  next_match : Option (Nat × Nat)
deriving DecidableEq, Repr

/-- A `SimplifyingSearcher` fresh from `into_searcher`. -/
def simpInit (m : List (Nat × Nat)) : SimpSearcher :=
  { ms := m, index := 0, next_match := none }

/-- `SimplifyingSearcher::next` (`src/adapters/greedy_reject.rs`): a buffered
match is returned directly (note: *without* going through `any_step`, so
`index` is not advanced to its end); otherwise pull the child's next match,
reject the gap first when the cursor is behind it (buffering the match), and
return `Done` when the child has no further match (no trailing Reject). -/
def simpNext (st : SimpSearcher) : SearchStep × SimpSearcher :=
  match st.next_match with
  | some (s, e) => (SearchStep.Match s e, { st with next_match := none })
  | none =>
    match st.ms with
    | [] => (SearchStep.Done, st)
    | (s, e) :: rest =>
      if st.index < s then
        (SearchStep.Reject st.index s,
          { st with ms := rest, next_match := some (s, e), index := s })
      else
        (SearchStep.Match s e, { st with ms := rest, index := e })

/-- Repeatedly call `simpNext`, collecting steps until `Done`; `none` when
the fuel ran out first. -/
def simpRun : Nat → SimpSearcher → Option (List SearchStep)
  | 0, _ => none
  | fuel + 1, st =>
    match simpNext st with
    | (SearchStep.Done, _) => some []
    | (step, st') => (simpRun fuel st').map (fun l => step :: l)

/-- Claim C7: the Simplify wrapper is claimed to emit exactly one gap Reject
immediately before each Match and one final Reject before `Done`; the
compiled `greedy_reject.rs` code does neither.  For the child `"ab"` on
"xabxab" it emits `Reject(0,1), Match(1,3), Reject(1,4), Match(4,6)` — the
second Reject restarts at 1, overlapping the previous Match, because the
buffered-match return skips `any_step` — and for `"ab"` on "xabx" it returns
`Done` right after `Match(1,3)`, leaving the tail `3..4` uncovered. -/
theorem simplify_reject_bug :
    strMatches "ab".toList "xabxab".toList = [(1, 3), (4, 6)]
    ∧ simpRun 10 (simpInit [(1, 3), (4, 6)])
      = some [SearchStep.Reject 0 1, SearchStep.Match 1 3,
          SearchStep.Reject 1 4, SearchStep.Match 4 6]
    ∧ contiguousFrom 0 [SearchStep.Reject 0 1, SearchStep.Match 1 3,
        SearchStep.Reject 1 4, SearchStep.Match 4 6] = false
    ∧ strMatches "ab".toList "xabx".toList = [(1, 3)]
    ∧ simpRun 10 (simpInit [(1, 3)])
      = some [SearchStep.Reject 0 1, SearchStep.Match 1 3]
    ∧ finalEnd 0 [SearchStep.Reject 0 1, SearchStep.Match 1 3] ≠ 4 := by
  refine ⟨rfl, rfl, rfl, rfl, rfl, ?_⟩
  decide

/-- Well-formedness of a `next_match()` sequence for a haystack of length
`len`, starting from cursor `i`: matches are ordered and non-overlapping
(`i ≤ start ≤ end ≤ len`), and every non-final match ends before `len` (a
searcher that has emitted a span ending at `len` is exhausted). -/
def GoodFrom (len : Nat) : Nat → List (Nat × Nat) → Bool
  | _, [] => true
  | i, (s, e) :: rest =>
    decide (i ≤ s) && decide (s ≤ e) && decide (e ≤ len)
      && (rest.isEmpty || decide (e < len)) && GoodFrom len e rest

/-- The step sequence the Or combinator produces when both children report
the same match sequence `m`: each match, preceded by a gap Reject when the
cursor lags behind it, then one Reject up to `len` when matches are
exhausted before the end. -/
def orSelfTrace (len : Nat) : Nat → List (Nat × Nat) → List SearchStep
  | i, [] => if i ≥ len then [] else [SearchStep.Reject i len]
  | i, (s, e) :: rest =>
    if i < s then
      SearchStep.Reject i s :: SearchStep.Match s e :: orSelfTrace len e rest
    else
      SearchStep.Match s e :: orSelfTrace len e rest

theorem orRun_fuel_mono (f : Range → Range → ToMatch) (len : Nat) :
    ∀ fuel fuel' (st : OrSearcher) (l : List SearchStep), fuel ≤ fuel' →
      orRun f len fuel st = some l → orRun f len fuel' st = some l := by
  intro fuel
  induction fuel with
  | zero => intro fuel' st l _ h; exact absurd h (by simp [orRun])
  | succ n ih =>
    intro fuel' st l hle h
    obtain ⟨k, rfl⟩ : ∃ k, fuel' = k + (n + 1) :=
      ⟨fuel' - (n + 1), by omega⟩
    rw [show k + (n + 1) = (k + n) + 1 by omega]
    rw [orRun] at h ⊢
    rcases hs : orNext f len st with ⟨step, st'⟩
    rw [hs] at h
    cases step with
    | Done => exact h
    | Match s e =>
      simp only at h ⊢
      rcases hrec : orRun f len n st' with _ | l'
      · rw [hrec] at h; simp at h
      · rw [ih (k + n) st' l' (by omega) hrec]
        rw [hrec] at h
        exact h
    | Reject s e =>
      simp only at h ⊢
      rcases hrec : orRun f len n st' with _ | l'
      · rw [hrec] at h; simp at h
      · rw [ih (k + n) st' l' (by omega) hrec]
        rw [hrec] at h
        exact h

theorem matchesOf_orSelfTrace (len : Nat) :
    ∀ (i : Nat) (m : List (Nat × Nat)), matchesOf (orSelfTrace len i m) = m := by
  intro i m
  induction m generalizing i with
  | nil => by_cases h : i ≥ len <;> simp [orSelfTrace, h, matchesOf]
  | cons x rest ih =>
    obtain ⟨s, e⟩ := x
    by_cases h : i < s <;> simp [orSelfTrace, h, matchesOf, ih]

theorem orRun_self (f : Range → Range → ToMatch) (len : Nat) :
    ∀ (m : List (Nat × Nat)) (i : Nat), GoodFrom len i m = true →
      (i < len ∨ m = []) →
      orRun f len (2 * m.length + 2)
          { a := m, b := m, index := i, next_match := none, cached_match := none }
        = some (orSelfTrace len i m) := by
  intro m
  induction m with
  | nil =>
    intro i _ _
    rw [show 2 * ([] : List (Nat × Nat)).length + 2 = 1 + 1 by simp]
    by_cases h : len ≤ i
    · simp [orRun, orNext, h, orSelfTrace]
    · simp [orRun, orNext, orNextMatches, popMatch, orRejectTo, orAnyStep, h,
        orSelfTrace]
  | cons x rest ih =>
    rintro i hg hi
    obtain ⟨s, e⟩ := x
    simp only [GoodFrom, Bool.and_eq_true, Bool.or_eq_true, decide_eq_true_eq,
      List.isEmpty_iff] at hg
    obtain ⟨⟨⟨⟨his, hse⟩, hel⟩, hrest_or⟩, hgrest⟩ := hg
    have hilen : i < len := by
      rcases hi with h | h
      · exact h
      · simp at h
    have hnext : rest = [] ∨ e < len := hrest_or
    have step1 : orNext f len
        { a := (s, e) :: rest, b := (s, e) :: rest, index := i,
          next_match := none, cached_match := none }
        = orMatchStep
            { a := rest, b := rest, index := i,
              next_match := none, cached_match := none } s e := by
      simp only [orNext, orNextMatches, popMatch]
      rw [if_neg (Nat.not_le.mpr hilen)]
      rw [if_pos (by simp)]
      cases f ⟨s, e⟩ ⟨s, e⟩ <;> rfl
    have hrec := ih e hgrest (Or.symm hnext)
    rw [show 2 * ((s, e) :: rest).length + 2 = (2 * rest.length + 3) + 1 by
      simp [List.length_cons]; omega]
    by_cases hlt : i < s
    · have step1' : orNext f len
          { a := (s, e) :: rest, b := (s, e) :: rest, index := i,
            next_match := none, cached_match := none }
          = (SearchStep.Reject i s,
              { a := rest, b := rest, index := s,
                next_match := some (s, e), cached_match := none }) := by
        rw [step1]
        simp [orMatchStep, orRejectTo, orAnyStep, hlt]
      rw [orRun, step1']
      simp only []
      rw [show 2 * rest.length + 3 = (2 * rest.length + 2) + 1 by omega]
      rw [orRun]
      have step2 : orNext f len
          { a := rest, b := rest, index := s,
            next_match := some (s, e), cached_match := none }
          = (SearchStep.Match s e,
              { a := rest, b := rest, index := e,
                next_match := none, cached_match := none }) := by
        simp [orNext, orAnyStep]
      rw [step2]
      simp only []
      rw [hrec]
      simp [orSelfTrace, hlt]
    · have step1' : orNext f len
          { a := (s, e) :: rest, b := (s, e) :: rest, index := i,
            next_match := none, cached_match := none }
          = (SearchStep.Match s e,
              { a := rest, b := rest, index := e,
                next_match := none, cached_match := none }) := by
        rw [step1]
        simp [orMatchStep, orAnyStep, hlt]
      rw [orRun, step1']
      simp only []
      rw [orRun_fuel_mono f len (2 * rest.length + 2) (2 * rest.length + 3) _ _
        (by omega) hrec]
      simp [orSelfTrace, hlt]

/-- Claim C9 (amended): for every well-formed match sequence `m` that a
pattern `P` reports on a haystack of length `len` (ordered, non-overlapping,
within bounds — `GoodFrom`), and excluding the empty-haystack zero-width
match (`len = 0 → m = []`, the counterexample case), the searchers of
`P.lor(P)` and `P.ror(P)` produce identical step sequences whose match
sequence is exactly `P`'s own `m`. -/
theorem lor_ror_self_matches (m : List (Nat × Nat)) (len : Nat)
    (hg : GoodFrom len 0 m = true) (h0 : len = 0 → m = []) :
    orRun lorPolicy len (2 * m.length + 2) (orInit m m)
      = orRun rorPolicy len (2 * m.length + 2) (orInit m m)
    ∧ (orRun lorPolicy len (2 * m.length + 2) (orInit m m)).map matchesOf
      = some m := by
  have hside : 0 < len ∨ m = [] := by
    rcases Nat.eq_zero_or_pos len with h | h
    · right; exact h0 h
    · left; exact h
  have hl := orRun_self lorPolicy len m 0 hg hside
  have hr := orRun_self rorPolicy len m 0 hg hside
  unfold orInit
  rw [hl, hr]
  exact ⟨rfl, by simp [matchesOf_orSelfTrace]⟩

/-- Witness for `lor_ror_self_matches` at the match list `[(0,1), (2,3)]` on
a haystack of length 3. -/
theorem lor_ror_self_matches_w :
    orRun lorPolicy 3 6 (orInit [(0, 1), (2, 3)] [(0, 1), (2, 3)])
      = orRun rorPolicy 3 6 (orInit [(0, 1), (2, 3)] [(0, 1), (2, 3)])
    ∧ (orRun lorPolicy 3 6 (orInit [(0, 1), (2, 3)] [(0, 1), (2, 3)])).map matchesOf
      = some [(0, 1), (2, 3)] :=
  lor_ror_self_matches [(0, 1), (2, 3)] 3 (by decide) (by decide)

/-- State of `ThenSearcher` (`src/adapters/then.rs`).  Both children are
consumed only through `next_match()`, so they are embedded as their remaining
match sequences; `thn` is the Rust field `then` (a Lean keyword). -/
structure ThenSearcher where
  first : List (Nat × Nat)
  thn : List (Nat × Nat)
  index : Nat
  next_then : Option (Nat × Nat)
  next_match : Option (Nat × Nat)
deriving DecidableEq, Repr

/-- A `ThenSearcher` fresh from `into_searcher`. -/
def thenInit (a b : List (Nat × Nat)) : ThenSearcher :=
  { first := a, thn := b, index := 0, next_then := none, next_match := none }

/-- The `while let` loop inside `ThenSearcher::next_then_match`: keep pulling
the second child's matches, discarding those whose end is not past `after`. -/
def scanThen : List (Nat × Nat) → Nat → Option ((Nat × Nat) × List (Nat × Nat))
  | [], _ => none
  | (s, e) :: rest, after =>
    if e > after then some ((s, e), rest) else scanThen rest after

/-- `ThenSearcher::next_then_match`: take the cached second-child match (or
pull one); if it ends or starts before `after`, scan forward for the first
match ending past `after` (caching it); a failed scan leaves the stale cache
in place, exactly as the Rust `or_else` does. -/
def nextThenMatch (st : ThenSearcher) (after : Nat) :
    Option (Nat × Nat) × ThenSearcher :=
  let pulled : Option ((Nat × Nat) × List (Nat × Nat)) :=
    match st.next_then with
    | some se => some (se, st.thn)
    | none =>
      match st.thn with
      | [] => none
      | se :: rest => some (se, rest)
  match pulled with
  | none => (none, st)
  | some ((s, e), thn1) =>
    if e < after || s < after then
      match scanThen thn1 after with
      | some (se, rest) => (some se, { st with thn := rest, next_then := some se })
      | none => (none, { st with thn := [] })
    else
      (some (s, e), { st with thn := thn1, next_then := some (s, e) })

/-- `ThenSearcher::next_internal_match`: the first child's next match whose
start is at or past the cursor, discarding earlier ones. -/
def nextInternalMatch : List (Nat × Nat) → Nat → Option (Nat × Nat) × List (Nat × Nat)
  | [], _ => (none, [])
  | (s, e) :: rest, idx =>
    if s ≥ idx then (some (s, e), rest) else nextInternalMatch rest idx

/-- `ThenSearcher::next` for a haystack of length `len`, translated clause by
clause from `src/adapters/then.rs` (release semantics at the
`debug_assert_eq!(self.index(), start)`). -/
def thenNext (len : Nat) (st : ThenSearcher) : SearchStep × ThenSearcher :=
  match st.next_match with
  | some (s, e) => (SearchStep.Match s e, { st with next_match := none, index := e })
  | none =>
    if st.index ≥ len then
      (SearchStep.Done, st)
    else
      match nextInternalMatch st.first st.index with
      | (some (s, e), first') =>
        let st1 := { st with first := first' }
        match nextThenMatch st1 e with
        | (some (ts, te), st2) =>
          if e = ts then
            if st2.index < s then
              (SearchStep.Reject st2.index s,
                { st2 with next_match := some (s, te), index := s })
            else
              (SearchStep.Match s te, { st2 with index := te })
          else
            (SearchStep.Reject st2.index e, { st2 with index := e })
        | (none, st2) =>
          (SearchStep.Reject st2.index len, { st2 with index := len })
      | (none, first') =>
        (SearchStep.Reject st.index len, { st with first := first', index := len })

/-- Repeatedly call `thenNext`, collecting steps until `Done`; `none` when
the fuel ran out first. -/
def thenRun (len : Nat) : Nat → ThenSearcher → Option (List SearchStep)
  | 0, _ => none
  | fuel + 1, st =>
    match thenNext len st with
    | (SearchStep.Done, _) => some []
    | (step, st') => (thenRun len fuel st').map (fun l => step :: l)

/-- The match sequence of a single-character literal pattern on a haystack,
starting at position `i`: one width-1 match per occurrence of the
character. -/
def charMs (c : Char) : List Char → Nat → List (Nat × Nat)
  | [], _ => []
  | x :: rest, i =>
    if x = c then (i, i + 1) :: charMs c rest (i + 1) else charMs c rest (i + 1)

theorem strMatchesGo_single (c : Char) :
    ∀ (h : List Char) (fuel i : Nat), h.length ≤ fuel →
      strMatchesGo [c] fuel h i = charMs c h i := by
  intro h
  induction h with
  | nil =>
    intro fuel i _
    cases fuel with
    | zero => rfl
    | succ f => rfl
  | cons x rest ih =>
    intro fuel i hfuel
    cases fuel with
    | zero => simp at hfuel
    | succ f =>
      have hf : rest.length ≤ f := by simp at hfuel; omega
      by_cases hx : x = c
      · subst hx
        simp only [strMatchesGo, leadsWith, charMs, if_pos rfl]
        rw [if_pos (by simp)]
        simp only [List.length_singleton, Nat.sub_self, List.drop_zero]
        exact congrArg _ (ih f (i + 1) hf)
      · have hlw : leadsWith [c] (x :: rest) = false := by
          simp [leadsWith]
          exact fun hc => absurd hc.symm hx
        simp only [strMatchesGo, hlw, Bool.false_and]
        rw [if_neg (by simp), charMs, if_neg hx]
        exact ih f (i + 1) hf

theorem strMatches_single (c : Char) (h : List Char) :
    strMatches [c] h = charMs c h 0 := by
  unfold strMatches
  simp only [List.length_singleton]
  rw [if_neg (by simp)]
  exact strMatchesGo_single c h (h.length + 1) 0 (by omega)

/-- The occurrences of the two-character literal "ab" in a haystack starting
at position `i` (greedy left-to-right scan; since "ab" cannot overlap
itself, these are all the occurrences). -/
def abOccs : List Char → Nat → List (Nat × Nat)
  | [], _ => []
  | [_], _ => []
  | x :: y :: rest, i =>
    if x = 'a' ∧ y = 'b' then (i, i + 2) :: abOccs rest (i + 2)
    else abOccs (y :: rest) (i + 1)

theorem strMatchesGo_ab :
    ∀ (fuel : Nat) (h : List Char) (i : Nat), h.length ≤ fuel →
      strMatchesGo ['a', 'b'] fuel h i = abOccs h i := by
  intro fuel
  induction fuel with
  | zero =>
    intro h i hfuel
    have : h = [] := List.length_eq_zero.mp (by omega)
    subst this
    rfl
  | succ f ih =>
    intro h i hfuel
    match h with
    | [] => rfl
    | [x] =>
      have hlw : leadsWith ['a', 'b'] [x] = false := by
        cases hx : ('a' == x) <;> simp [leadsWith, hx]
      simp only [strMatchesGo, hlw, Bool.false_and]
      rw [if_neg (by simp)]
      cases f <;> rfl
    | x :: y :: rest =>
      simp only [List.length_cons] at hfuel
      by_cases hab : x = 'a' ∧ y = 'b'
      · have : leadsWith ['a', 'b'] (x :: y :: rest) = true := by
          simp [leadsWith, hab.1, hab.2]
        simp only [strMatchesGo, this, Bool.true_and]
        rw [if_pos (by simp)]
        rw [show (['a', 'b'] : List Char).length = 2 from rfl]
        rw [show List.drop (2 - 1) (y :: rest) = rest from rfl]
        rw [abOccs.eq_3, if_pos hab]
        exact congrArg _ (ih rest (i + 2) (by omega))
      · have : leadsWith ['a', 'b'] (x :: y :: rest) = false := by
          simp [leadsWith]
          intro hx hy
          exact absurd ⟨hx.symm, hy.symm⟩ hab
        simp only [strMatchesGo, this, Bool.false_and, if_neg (by simp : ¬ (false = true && true))]
        rw [abOccs, if_neg hab]
        exact ih (y :: rest) (i + 1) (by simp; omega)

theorem strMatches_ab (h : List Char) :
    strMatches ['a', 'b'] h = abOccs h 0 := by
  unfold strMatches
  rw [if_neg (by simp)]
  exact strMatchesGo_ab (h.length + 1) h 0 (by omega)

/-- Well-formedness of a width-1 match sequence (as a single-character
pattern produces): every match is `(s, s+1)` with starts strictly
increasing, bounded below by `lb`. -/
def W1S (lb : Nat) : List (Nat × Nat) → Bool
  | [] => true
  | (s, e) :: rest => decide (lb ≤ s) && decide (e = s + 1) && W1S (s + 1) rest

/-- The effective second-child stream of a `ThenSearcher`: the cached
lookahead (if any) followed by the remaining matches. -/
def effOf (nt : Option (Nat × Nat)) (B : List (Nat × Nat)) : List (Nat × Nat) :=
  match nt with
  | none => B
  | some x => x :: B

/-- Whether some match in `B` starts at position `p`. -/
def memStart (B : List (Nat × Nat)) (p : Nat) : Bool :=
  B.any (fun se => se.1 == p)

theorem W1S_mono (l : List (Nat × Nat)) :
    ∀ lb lb', lb' ≤ lb → W1S lb l = true → W1S lb' l = true := by
  induction l with
  | nil => intro lb lb' _ _; rfl
  | cons x rest _ =>
    obtain ⟨s, e⟩ := x
    intro lb lb' hle h
    simp only [W1S, Bool.and_eq_true, decide_eq_true_eq] at h ⊢
    exact ⟨⟨by omega, h.1.2⟩, h.2⟩

theorem W1S_mem (l : List (Nat × Nat)) :
    ∀ lb s e, W1S lb l = true → (s, e) ∈ l → e = s + 1 ∧ lb ≤ s := by
  induction l with
  | nil => intro lb s e _ hm; simp at hm
  | cons x rest ih =>
    obtain ⟨u, v⟩ := x
    intro lb s e h hm
    simp only [W1S, Bool.and_eq_true, decide_eq_true_eq] at h
    rcases List.mem_cons.mp hm with heq | hmem
    · simp only [Prod.mk.injEq] at heq
      obtain ⟨rfl, rfl⟩ := heq
      exact ⟨h.1.2, h.1.1⟩
    · have := ih (u + 1) s e h.2 hmem
      exact ⟨this.1, by omega⟩

theorem scanThen_none (B : List (Nat × Nat)) :
    ∀ x, scanThen B x = none → ∀ se ∈ B, se.2 ≤ x := by
  induction B with
  | nil => intro x _ se hm; simp at hm
  | cons y rest ih =>
    obtain ⟨t, te⟩ := y
    intro x h se hm
    rw [scanThen] at h
    by_cases hgt : te > x
    · rw [if_pos hgt] at h
      exact Option.noConfusion h
    · rw [if_neg hgt] at h
      rcases List.mem_cons.mp hm with heq | hmem
      · subst heq; exact Nat.not_lt.mp hgt
      · exact ih x h se hmem

theorem scanThen_some (B : List (Nat × Nat)) :
    ∀ x y r, scanThen B x = some (y, r) →
      ∃ d, B = d ++ y :: r ∧ (∀ se ∈ d, se.2 ≤ x) ∧ x < y.2 := by
  induction B with
  | nil => intro x y r h; simp [scanThen] at h
  | cons z rest ih =>
    obtain ⟨t, te⟩ := z
    intro x y r h
    rw [scanThen] at h
    split_ifs at h with hgt
    · simp only [Option.some.injEq, Prod.mk.injEq] at h
      obtain ⟨rfl, rfl⟩ := h
      exact ⟨[], rfl, by simp, hgt⟩
    · obtain ⟨d, hB, hd, hy⟩ := ih x y r h
      exact ⟨(t, te) :: d, by simp [hB], by
        intro se hm
        rcases List.mem_cons.mp hm with heq | hmem
        · subst heq; exact Nat.not_lt.mp hgt
        · exact hd se hmem, hy⟩

theorem W1S_of_append (d : List (Nat × Nat)) :
    ∀ l lb, W1S lb (d ++ l) = true → W1S 0 l = true := by
  induction d with
  | nil => intro l lb h; exact W1S_mono l lb 0 (Nat.zero_le _) h
  | cons x rest ih =>
    obtain ⟨s, e⟩ := x
    intro l lb h
    simp only [List.cons_append, W1S, Bool.and_eq_true] at h
    exact ih l (s + 1) h.2

theorem nextThenMatch_eq (st : ThenSearcher) (after : Nat)
    (hw : W1S 0 (effOf st.next_then st.thn) = true) :
    nextThenMatch st after =
      match scanThen (effOf st.next_then st.thn) after with
      | none => (none, { st with thn := [] })
      | some (x, r) => (some x, { st with thn := r, next_then := some x }) := by
  obtain ⟨A, B, i, nt, nm⟩ := st
  cases nt with
  | none =>
    cases B with
    | nil => rfl
    | cons y rest =>
      obtain ⟨t, te⟩ := y
      simp only [effOf] at hw ⊢
      simp only [W1S, Bool.and_eq_true, decide_eq_true_eq] at hw
      obtain ⟨⟨-, hte⟩, -⟩ := hw
      by_cases hgt : after < te
      · simp only [nextThenMatch]
        rw [if_neg (by simp; omega)]
        rw [show scanThen ((t, te) :: rest) after = some ((t, te), rest) from by
          rw [scanThen]; exact if_pos hgt]
      · simp only [nextThenMatch]
        rw [if_pos (by simp; omega)]
        rw [show scanThen ((t, te) :: rest) after = scanThen rest after from by
          rw [scanThen]; exact if_neg hgt]
        cases hscan : scanThen rest after with
        | none => rfl
        | some p => obtain ⟨x, r⟩ := p; rfl
  | some y =>
    obtain ⟨t, te⟩ := y
    simp only [effOf] at hw ⊢
    simp only [W1S, Bool.and_eq_true, decide_eq_true_eq] at hw
    obtain ⟨⟨-, hte⟩, -⟩ := hw
    by_cases hgt : after < te
    · simp only [nextThenMatch]
      rw [if_neg (by simp; omega)]
      rw [show scanThen ((t, te) :: B) after = some ((t, te), B) from by
        rw [scanThen]; exact if_pos hgt]
    · simp only [nextThenMatch]
      rw [if_pos (by simp; omega)]
      rw [show scanThen ((t, te) :: B) after = scanThen B after from by
        rw [scanThen]; exact if_neg hgt]
      cases hscan : scanThen B after with
      | none => rfl
      | some p => obtain ⟨x, r⟩ := p; rfl

theorem thenRun_fuel_mono (len : Nat) :
    ∀ fuel fuel' (st : ThenSearcher) (l : List SearchStep), fuel ≤ fuel' →
      thenRun len fuel st = some l → thenRun len fuel' st = some l := by
  intro fuel
  induction fuel with
  | zero => intro fuel' st l _ h; exact absurd h (by simp [thenRun])
  | succ n ih =>
    intro fuel' st l hle h
    obtain ⟨k, rfl⟩ : ∃ k, fuel' = k + (n + 1) :=
      ⟨fuel' - (n + 1), by omega⟩
    rw [show k + (n + 1) = (k + n) + 1 by omega]
    rw [thenRun] at h ⊢
    rcases hs : thenNext len st with ⟨step, st'⟩
    rw [hs] at h
    cases step with
    | Done => exact h
    | Match s e =>
      simp only at h ⊢
      rcases hrec : thenRun len n st' with _ | l'
      · rw [hrec] at h; simp at h
      · rw [ih (k + n) st' l' (by omega) hrec]
        rw [hrec] at h
        exact h
    | Reject s e =>
      simp only at h ⊢
      rcases hrec : thenRun len n st' with _ | l'
      · rw [hrec] at h; simp at h
      · rw [ih (k + n) st' l' (by omega) hrec]
        rw [hrec] at h
        exact h

theorem thenRun_drop (len : Nat) (fuel i s e : Nat)
    (A B : List (Nat × Nat)) (nt : Option (Nat × Nat)) (h : s < i) :
    thenRun len fuel
        { first := (s, e) :: A, thn := B, index := i, next_then := nt, next_match := none }
      = thenRun len fuel
          { first := A, thn := B, index := i, next_then := nt, next_match := none } := by
  cases fuel with
  | zero => rfl
  | succ f =>
    by_cases hlen : len ≤ i
    · rw [thenRun, thenRun]
      simp only [thenNext]
      rw [if_pos hlen, if_pos hlen]
    · have heq : thenNext len
          { first := (s, e) :: A, thn := B, index := i, next_then := nt, next_match := none }
          = thenNext len
            { first := A, thn := B, index := i, next_then := nt, next_match := none } := by
        simp only [thenNext]
        rw [if_neg hlen, if_neg hlen]
        rw [show nextInternalMatch ((s, e) :: A) i = nextInternalMatch A i from by
          rw [nextInternalMatch]; exact if_neg (by omega)]
      rw [thenRun, thenRun, heq]

/-- The match sequence the Then machine produces from cursor `i` given the
first child's remaining matches and the effective second-child stream: drop
first-child matches behind the cursor; for each candidate find the first
second-child match ending past it (`scanThen`, as `next_then_match` does);
fuse when it starts exactly at the candidate's end, otherwise reject the
candidate; stop altogether when the second child is exhausted (the machine
then rejects to the end of the haystack). -/
def thenFuse : Nat → List (Nat × Nat) → List (Nat × Nat) → List (Nat × Nat)
  | _, [], _ => []
  | i, (s, e) :: A1, B =>
    if s < i then thenFuse i A1 B
    else
      match scanThen B e with
      | none => []
      | some ((t, te), B1) =>
        if e = t then (s, te) :: thenFuse te A1 ((t, te) :: B1)
        else thenFuse e A1 ((t, te) :: B1)

theorem thenRun_trace (len : Nat) :
    ∀ (A B : List (Nat × Nat)) (nt : Option (Nat × Nat)) (i : Nat),
      W1S 0 A = true →
      A.all (fun se => decide (se.2 ≤ len)) = true →
      W1S 0 (effOf nt B) = true →
      ∃ steps,
        thenRun len (2 * A.length + 2)
            { first := A, thn := B, index := i, next_then := nt, next_match := none }
          = some steps
        ∧ matchesOf steps = thenFuse i A (effOf nt B) := by
  intro A
  induction A with
  | nil =>
    intro B nt i _ _ _
    by_cases hlen : len ≤ i
    · refine ⟨[], ?_, rfl⟩
      rw [show 2 * ([] : List (Nat × Nat)).length + 2 = 1 + 1 by simp]
      rw [thenRun]
      have h1 : thenNext len
          { first := [], thn := B, index := i, next_then := nt, next_match := none }
          = (SearchStep.Done,
              { first := [], thn := B, index := i, next_then := nt,
                next_match := none }) := by
        simp only [thenNext]
        rw [if_pos hlen]
      rw [h1]
    · refine ⟨[SearchStep.Reject i len], ?_, rfl⟩
      rw [show 2 * ([] : List (Nat × Nat)).length + 2 = 1 + 1 by simp]
      rw [thenRun]
      have h1 : thenNext len
          { first := [], thn := B, index := i, next_then := nt, next_match := none }
          = (SearchStep.Reject i len,
              { first := [], thn := B, index := len, next_then := nt,
                next_match := none }) := by
        simp only [thenNext]
        rw [if_neg hlen]
        rfl
      rw [h1]
      simp only
      rw [thenRun]
      have h2 : thenNext len
          { first := [], thn := B, index := len, next_then := nt, next_match := none }
          = (SearchStep.Done,
              { first := [], thn := B, index := len, next_then := nt,
                next_match := none }) := by
        simp only [thenNext]
        rw [if_pos (le_refl len)]
      rw [h2]
      rfl
  | cons x A1 ih =>
    obtain ⟨s, e⟩ := x
    intro B nt i hwA hbnd hwE
    simp only [W1S, Bool.and_eq_true, decide_eq_true_eq] at hwA
    obtain ⟨⟨-, he⟩, hwA1⟩ := hwA
    simp only [List.all_cons, Bool.and_eq_true, decide_eq_true_eq] at hbnd
    obtain ⟨hel, hbnd1⟩ := hbnd
    have hwA10 : W1S 0 A1 = true := W1S_mono A1 (s + 1) 0 (by omega) hwA1
    by_cases hsi : s < i
    · obtain ⟨steps, hrun, hm⟩ := ih B nt i hwA10 hbnd1 hwE
      refine ⟨steps, ?_, ?_⟩
      · rw [thenRun_drop len _ i s e A1 B nt hsi]
        exact thenRun_fuel_mono len (2 * A1.length + 2) _ _ steps
          (by simp only [List.length_cons]; omega) hrun
      · rw [hm, thenFuse]
        rw [if_pos hsi]
    · have hilen : i < len := by omega
      have hinternal : nextInternalMatch ((s, e) :: A1) i = (some (s, e), A1) := by
        rw [nextInternalMatch]; exact if_pos (by omega)
      cases hscan : scanThen (effOf nt B) e with
      | none =>
        have hnext : thenNext len
            { first := (s, e) :: A1, thn := B, index := i, next_then := nt,
              next_match := none }
            = (SearchStep.Reject i len,
                { first := A1, thn := [], index := len, next_then := nt,
                  next_match := none }) := by
          simp only [thenNext]
          rw [if_neg (Nat.not_le.mpr hilen), hinternal]
          simp only
          rw [nextThenMatch_eq
            { first := A1, thn := B, index := i, next_then := nt, next_match := none }
            e hwE]
          rw [hscan]
        refine ⟨[SearchStep.Reject i len], ?_, ?_⟩
        · rw [show 2 * ((s, e) :: A1).length + 2 = (2 * A1.length + 2 + 1) + 1 by
            simp [List.length_cons]; omega]
          rw [thenRun, hnext]
          simp only
          rw [show 2 * A1.length + 2 + 1 = (2 * A1.length + 2) + 1 by omega]
          rw [thenRun]
          have h2 : thenNext len
              { first := A1, thn := [], index := len, next_then := nt,
                next_match := none }
              = (SearchStep.Done,
                  { first := A1, thn := [], index := len, next_then := nt,
                    next_match := none }) := by
            simp only [thenNext]
            rw [if_pos (le_refl len)]
          rw [h2]
          rfl
        · rw [thenFuse, if_neg hsi, hscan]
          rfl
      | some p =>
        obtain ⟨⟨t, te⟩, B1⟩ := p
        obtain ⟨d, hdeq, hdlt, hgt⟩ := scanThen_some (effOf nt B) e (t, te) B1 hscan
        have hwsuf : W1S 0 ((t, te) :: B1) = true :=
          W1S_of_append d ((t, te) :: B1) 0 (by rw [← hdeq]; exact hwE)
        have hwE1 : W1S 0 (effOf (some (t, te)) B1) = true := by
          simp only [effOf]; exact hwsuf
        by_cases het : e = t
        · by_cases his2 : i < s
          · have hnext : thenNext len
                { first := (s, e) :: A1, thn := B, index := i, next_then := nt,
                  next_match := none }
                = (SearchStep.Reject i s,
                    { first := A1, thn := B1, index := s, next_then := some (t, te),
                      next_match := some (s, te) }) := by
              simp only [thenNext]
              rw [if_neg (Nat.not_le.mpr hilen), hinternal]
              simp only
              rw [nextThenMatch_eq
                { first := A1, thn := B, index := i, next_then := nt, next_match := none }
                e hwE]
              rw [hscan]
              simp only
              rw [if_pos het, if_pos his2]
            obtain ⟨steps, hrun, hm⟩ := ih B1 (some (t, te)) te hwA10 hbnd1 hwE1
            refine ⟨SearchStep.Reject i s :: SearchStep.Match s te :: steps, ?_, ?_⟩
            · rw [show 2 * ((s, e) :: A1).length + 2 = ((2 * A1.length + 2) + 1) + 1 by
                simp [List.length_cons]; omega]
              rw [thenRun, hnext]
              simp only
              rw [thenRun]
              have h2 : thenNext len
                  { first := A1, thn := B1, index := s, next_then := some (t, te),
                    next_match := some (s, te) }
                  = (SearchStep.Match s te,
                      { first := A1, thn := B1, index := te, next_then := some (t, te),
                        next_match := none }) := by
                simp only [thenNext]
              rw [h2]
              simp only
              rw [hrun]
              rfl
            · simp only [matchesOf]
              rw [hm, thenFuse, if_neg hsi, hscan]
              simp only
              rw [if_pos het]
              rfl
          · have hnext : thenNext len
                { first := (s, e) :: A1, thn := B, index := i, next_then := nt,
                  next_match := none }
                = (SearchStep.Match s te,
                    { first := A1, thn := B1, index := te, next_then := some (t, te),
                      next_match := none }) := by
              simp only [thenNext]
              rw [if_neg (Nat.not_le.mpr hilen), hinternal]
              simp only
              rw [nextThenMatch_eq
                { first := A1, thn := B, index := i, next_then := nt, next_match := none }
                e hwE]
              rw [hscan]
              simp only
              rw [if_pos het, if_neg his2]
            obtain ⟨steps, hrun, hm⟩ := ih B1 (some (t, te)) te hwA10 hbnd1 hwE1
            refine ⟨SearchStep.Match s te :: steps, ?_, ?_⟩
            · rw [show 2 * ((s, e) :: A1).length + 2 = ((2 * A1.length + 2) + 1) + 1 by
                simp [List.length_cons]; omega]
              rw [thenRun, hnext]
              simp only
              rw [thenRun_fuel_mono len (2 * A1.length + 2) ((2 * A1.length + 2) + 1)
                _ steps (by omega) hrun]
              rfl
            · simp only [matchesOf]
              rw [hm, thenFuse, if_neg hsi, hscan]
              simp only
              rw [if_pos het]
              rfl
        · have hnext : thenNext len
              { first := (s, e) :: A1, thn := B, index := i, next_then := nt,
                next_match := none }
              = (SearchStep.Reject i e,
                  { first := A1, thn := B1, index := e, next_then := some (t, te),
                    next_match := none }) := by
            simp only [thenNext]
            rw [if_neg (Nat.not_le.mpr hilen), hinternal]
            simp only
            rw [nextThenMatch_eq
              { first := A1, thn := B, index := i, next_then := nt, next_match := none }
              e hwE]
            rw [hscan]
            simp only
            rw [if_neg het]
          obtain ⟨steps, hrun, hm⟩ := ih B1 (some (t, te)) e hwA10 hbnd1 hwE1
          refine ⟨SearchStep.Reject i e :: steps, ?_, ?_⟩
          · rw [show 2 * ((s, e) :: A1).length + 2 = ((2 * A1.length + 2) + 1) + 1 by
              simp [List.length_cons]; omega]
            rw [thenRun, hnext]
            simp only
            rw [thenRun_fuel_mono len (2 * A1.length + 2) ((2 * A1.length + 2) + 1)
              _ steps (by omega) hrun]
            rfl
          · simp only [matchesOf]
            rw [hm, thenFuse, if_neg hsi, hscan]
            simp only
            rw [if_neg het]
            rfl

/-- The specification-level fusion: keep exactly those first-child matches
whose end is the start of some second-child match, fusing the spans. -/
def fuseAll (B : List (Nat × Nat)) : List (Nat × Nat) → List (Nat × Nat)
  | [] => []
  | (s, e) :: A1 =>
    if memStart B e then (s, e + 1) :: fuseAll B A1 else fuseAll B A1

theorem memStart_append (d l : List (Nat × Nat)) (p : Nat) :
    memStart (d ++ l) p = (memStart d p || memStart l p) := by
  simp [memStart, List.any_append]

theorem memStart_false (d : List (Nat × Nat)) (x p : Nat)
    (hle : ∀ se ∈ d, se.2 ≤ x) (hw1 : ∀ se ∈ d, se.2 = se.1 + 1)
    (hxp : x ≤ p) : memStart d p = false := by
  simp only [memStart, List.any_eq_false]
  intro se hm
  have h1 := hle se hm
  have h2 := hw1 se hm
  have h3 : se.1 ≠ p := by omega
  simpa using h3

theorem memStart_head (t te : Nat) (B1 : List (Nat × Nat)) :
    memStart ((t, te) :: B1) t = true := by
  simp [memStart]

theorem fuseAll_nil (A B : List (Nat × Nat))
    (h : ∀ se ∈ A, memStart B se.2 = false) : fuseAll B A = [] := by
  induction A with
  | nil => rfl
  | cons x A1 ih =>
    obtain ⟨s, e⟩ := x
    rw [fuseAll, if_neg (by rw [h (s, e) (List.mem_cons_self _ _)]; simp)]
    exact ih (fun se hm => h se (List.mem_cons_of_mem _ hm))

theorem fuseAll_congr (A : List (Nat × Nat)) :
    ∀ (B B' : List (Nat × Nat)),
      (∀ se ∈ A, memStart B se.2 = memStart B' se.2) →
      fuseAll B A = fuseAll B' A := by
  induction A with
  | nil => intro B B' _; rfl
  | cons x A1 ih =>
    obtain ⟨s, e⟩ := x
    intro B B' h
    rw [fuseAll, fuseAll, h (s, e) (List.mem_cons_self _ _),
      ih B B' (fun se hm => h se (List.mem_cons_of_mem _ hm))]

theorem thenFuse_eq_fuseAll :
    ∀ (A B : List (Nat × Nat)) (i : Nat),
      W1S 0 A = true → W1S 0 B = true →
      (∀ se ∈ A, memStart B se.1 = false) →
      (∀ se ∈ A, i ≤ se.1) →
      thenFuse i A B = fuseAll B A := by
  intro A
  induction A with
  | nil => intro B i _ _ _ _; rfl
  | cons x A1 ih =>
    obtain ⟨s, e⟩ := x
    intro B i hwA hwB hdisj hge
    simp only [W1S, Bool.and_eq_true, decide_eq_true_eq] at hwA
    obtain ⟨⟨-, he⟩, hwA1⟩ := hwA
    have hwA10 : W1S 0 A1 = true := W1S_mono A1 (s + 1) 0 (by omega) hwA1
    have hA1lb : ∀ se ∈ A1, s + 1 ≤ se.1 := by
      intro se hm
      obtain ⟨u, v⟩ := se
      exact (W1S_mem A1 (s + 1) u v hwA1 hm).2
    have hA1w : ∀ se ∈ A1, se.2 = se.1 + 1 := by
      intro se hm
      obtain ⟨u, v⟩ := se
      exact (W1S_mem A1 (s + 1) u v hwA1 hm).1
    have hBw : ∀ se ∈ B, se.2 = se.1 + 1 := by
      intro se hm
      obtain ⟨u, v⟩ := se
      exact (W1S_mem B 0 u v hwB hm).1
    have hsi : ¬ s < i := by
      have := hge (s, e) (List.mem_cons_self _ _)
      omega
    rw [thenFuse, if_neg hsi]
    cases hscan : scanThen B e with
    | none =>
      have hnone : ∀ p, e ≤ p → memStart B p = false := by
        intro p hp
        exact memStart_false B e p (scanThen_none B e hscan) hBw hp
      rw [fuseAll, if_neg (by rw [hnone e (le_refl e)]; simp)]
      rw [fuseAll_nil A1 B (fun se hm => hnone se.2 (by
        have := hA1lb se hm
        have := hA1w se hm
        omega))]
    | some p =>
      obtain ⟨⟨t, te⟩, B1⟩ := p
      obtain ⟨d, hdeq, hdlt, hgt⟩ := scanThen_some B e (t, te) B1 hscan
      simp only at hgt
      dsimp only
      have hwB' : W1S 0 ((t, te) :: B1) = true :=
        W1S_of_append d ((t, te) :: B1) 0 (by rw [← hdeq]; exact hwB)
      have hte : te = t + 1 := by
        simp only [W1S, Bool.and_eq_true, decide_eq_true_eq] at hwB'
        exact hwB'.1.2
      have hdw : ∀ se ∈ d, se.2 = se.1 + 1 := by
        intro se hm
        exact hBw se (by rw [hdeq]; exact List.mem_append_left _ hm)
      have htransfer : ∀ p, e ≤ p → memStart B p = memStart ((t, te) :: B1) p := by
        intro p hp
        rw [hdeq, memStart_append,
          memStart_false d e p hdlt hdw hp, Bool.false_or]
      have hdisj1 : ∀ se ∈ A1, memStart ((t, te) :: B1) se.1 = false := by
        intro se hm
        rw [← htransfer se.1 (by have := hA1lb se hm; omega)]
        exact hdisj se (List.mem_cons_of_mem _ hm)
      have hA1t : ∀ se ∈ A1, se.1 ≠ t := by
        intro se hm heqt
        have := hdisj1 se hm
        rw [heqt, memStart_head] at this
        exact Bool.noConfusion this
      by_cases het : e = t
      · have hstart : memStart B e = true := by
          rw [htransfer e (le_refl e), het, memStart_head]
        rw [if_pos het]
        rw [fuseAll, if_pos hstart]
        have hge1 : ∀ se ∈ A1, te ≤ se.1 := by
          intro se hm
          have h1 := hA1lb se hm
          have h2 := hA1t se hm
          omega
        rw [ih ((t, te) :: B1) te hwA10 hwB' hdisj1 hge1]
        rw [fuseAll_congr A1 ((t, te) :: B1) B (fun se hm => by
          rw [← htransfer se.2 (by have := hA1lb se hm; have := hA1w se hm; omega)])]
        rw [show e + 1 = te by omega]
      · have hwB1 : W1S (t + 1) B1 = true := by
          simp only [W1S, Bool.and_eq_true] at hwB'
          exact hwB'.2
        have hstart : memStart B e = false := by
          rw [htransfer e (le_refl e)]
          simp only [memStart, List.any_cons, Bool.or_eq_false_iff]
          constructor
          · have h5 : t ≠ e := fun hc => het (hc.symm)
            simpa using h5
          · simp only [List.any_eq_false]
            intro se hm
            obtain ⟨u, v⟩ := se
            have h4 := (W1S_mem B1 (t + 1) u v hwB1 hm).2
            have h5 : u ≠ e := by omega
            simpa using h5
        rw [if_neg het]
        rw [fuseAll, if_neg (by rw [hstart]; simp)]
        rw [ih ((t, te) :: B1) e hwA10 hwB' hdisj1 (fun se hm => by
          have := hA1lb se hm; omega)]
        exact fuseAll_congr A1 ((t, te) :: B1) B (fun se hm => by
          rw [← htransfer se.2 (by have := hA1lb se hm; have := hA1w se hm; omega)])

theorem charMs_W1S (c : Char) :
    ∀ (l : List Char) (k : Nat), W1S k (charMs c l k) = true := by
  intro l
  induction l with
  | nil => intro k; rfl
  | cons x rest ih =>
    intro k
    by_cases hx : x = c
    · rw [charMs, if_pos hx]
      simp only [W1S, Bool.and_eq_true, decide_eq_true_eq]
      exact ⟨⟨le_refl k, trivial⟩, ih (k + 1)⟩
    · rw [charMs, if_neg hx]
      exact W1S_mono _ (k + 1) k (by omega) (ih (k + 1))

theorem memStart_lb (l : List (Nat × Nat)) (k p : Nat)
    (hw : W1S k l = true) (hp : p < k) : memStart l p = false := by
  simp only [memStart, List.any_eq_false]
  intro se hm
  obtain ⟨u, v⟩ := se
  have := (W1S_mem l k u v hw hm).2
  have h5 : u ≠ p := by omega
  simpa using h5

theorem memStart_exists (l : List (Nat × Nat)) (p : Nat)
    (h : memStart l p = true) : ∃ e, (p, e) ∈ l := by
  simp only [memStart, List.any_eq_true] at h
  obtain ⟨se, hm, hbeq⟩ := h
  obtain ⟨u, v⟩ := se
  simp only [beq_iff_eq] at hbeq
  exact ⟨v, by rw [← hbeq]; exact hm⟩

theorem fuseAll_strip (A : List (Nat × Nat)) (p q : Nat) (B : List (Nat × Nat))
    (h : ∀ se ∈ A, se.2 ≠ p) : fuseAll ((p, q) :: B) A = fuseAll B A := by
  induction A with
  | nil => rfl
  | cons x A1 ih =>
    obtain ⟨s, e⟩ := x
    have hne : e ≠ p := h (s, e) (List.mem_cons_self _ _)
    have hms : memStart ((p, q) :: B) e = memStart B e := by
      simp only [memStart, List.any_cons]
      rw [show (p == e) = false by simpa using fun hc => hne hc.symm]
      simp
    rw [fuseAll, fuseAll, hms, ih (fun se hm => h se (List.mem_cons_of_mem _ hm))]

theorem charMs_mem (c : Char) (l : List Char) (k s e : Nat)
    (hm : (s, e) ∈ charMs c l k) : k ≤ s ∧ e = s + 1 := by
  have := W1S_mem (charMs c l k) k s e (charMs_W1S c l k) hm
  exact ⟨this.2, this.1⟩

theorem charMs_disjoint (c c' : Char) (hcc : c ≠ c') :
    ∀ (l : List Char) (k p : Nat), memStart (charMs c l k) p = true →
      memStart (charMs c' l k) p = false := by
  intro l
  induction l with
  | nil => intro k p h; simp [charMs, memStart] at h
  | cons x rest ih =>
    intro k p h
    by_cases hx : x = c
    · rw [charMs, if_pos hx] at h
      rw [charMs, if_neg (by rw [hx]; exact hcc)]
      simp only [memStart, List.any_cons, Bool.or_eq_true] at h
      rcases h with hk | hrec
      · simp only [beq_iff_eq] at hk
        subst hk
        exact memStart_lb _ (k + 1) k (charMs_W1S c' rest (k + 1)) (by omega)
      · exact ih (k + 1) p hrec
    · rw [charMs, if_neg hx] at h
      by_cases hx' : x = c'
      · rw [charMs, if_pos hx']
        obtain ⟨e, hmem⟩ := memStart_exists _ p h
        have hklep := (charMs_mem c rest (k + 1) p e hmem).1
        have hkp : k ≠ p := by omega
        simp only [memStart, List.any_cons, Bool.or_eq_true]
        rw [show (k == p) = false by simpa using hkp]
        simp only [Bool.false_or]
        exact ih (k + 1) p h
      · rw [charMs, if_neg hx']
        exact ih (k + 1) p h

theorem charMs_bound (c : Char) :
    ∀ (l : List Char) (k : Nat),
      (charMs c l k).all (fun se => decide (se.2 ≤ k + l.length)) = true := by
  intro l
  induction l with
  | nil => intro k; rfl
  | cons x rest ih =>
    intro k
    have hrec := ih (k + 1)
    have hrec' : (charMs c rest (k + 1)).all
        (fun se => decide (se.2 ≤ k + (x :: rest).length)) = true := by
      simp only [List.all_eq_true, decide_eq_true_eq] at hrec ⊢
      intro se hm
      have := hrec se hm
      simp only [List.length_cons]
      omega
    by_cases hx : x = c
    · rw [charMs, if_pos hx]
      simp only [List.all_cons, Bool.and_eq_true, decide_eq_true_eq]
      refine ⟨by simp only [List.length_cons]; omega, hrec'⟩
    · rw [charMs, if_neg hx]
      exact hrec'

theorem fuseAll_charMs :
    ∀ (N : Nat) (h : List Char) (n : Nat), h.length ≤ N →
      fuseAll (charMs 'b' h n) (charMs 'a' h n) = abOccs h n := by
  intro N
  induction N with
  | zero =>
    intro h n hle
    have : h = [] := List.length_eq_zero.mp (by omega)
    subst this
    rfl
  | succ N ih =>
    intro h n hle
    match h with
    | [] => rfl
    | [x] =>
      by_cases hx : x = 'a'
      · subst hx
        rw [show charMs 'a' ['a'] n = [(n, n + 1)] from by
          rw [charMs, if_pos rfl]; rfl]
        rw [show charMs 'b' ['a'] n = [] from by
          rw [charMs, if_neg (by decide)]; rfl]
        rfl
      · rw [show charMs 'a' [x] n = [] from by
          rw [charMs, if_neg hx]; rfl]
        rfl
    | x :: y :: rest =>
      simp only [List.length_cons] at hle
      by_cases hx : x = 'a'
      · subst hx
        have hAeq : charMs 'a' ('a' :: y :: rest) n
            = (n, n + 1) :: charMs 'a' (y :: rest) (n + 1) := by
          rw [charMs, if_pos rfl]
        have hBeq : charMs 'b' ('a' :: y :: rest) n
            = charMs 'b' (y :: rest) (n + 1) := by
          rw [charMs, if_neg (by decide)]
        by_cases hy : y = 'b'
        · subst hy
          have hA1 : charMs 'a' ('b' :: rest) (n + 1)
              = charMs 'a' rest (n + 2) := by
            rw [charMs, if_neg (by decide)]
          have hB1 : charMs 'b' ('b' :: rest) (n + 1)
              = (n + 1, n + 2) :: charMs 'b' rest (n + 2) := by
            rw [charMs, if_pos rfl]
          rw [hAeq, hBeq, hA1, hB1, fuseAll,
            if_pos (memStart_head (n + 1) (n + 2) _)]
          rw [abOccs, if_pos ⟨rfl, rfl⟩]
          rw [fuseAll_strip _ (n + 1) (n + 2) _ (fun se hm => by
            obtain ⟨u, v⟩ := se
            have := charMs_mem 'a' rest (n + 2) u v hm
            simp only
            omega)]
          rw [ih rest (n + 2) (by omega)]
        · have hA1 : memStart (charMs 'b' (y :: rest) (n + 1)) (n + 1) = false := by
            rw [show charMs 'b' (y :: rest) (n + 1) = charMs 'b' rest (n + 2) from by
              rw [charMs, if_neg hy]]
            exact memStart_lb _ (n + 2) (n + 1) (charMs_W1S 'b' rest (n + 2)) (by omega)
          rw [hAeq, hBeq, fuseAll, if_neg (by rw [hA1]; simp)]
          rw [abOccs, if_neg (fun hc => hy hc.2)]
          exact ih (y :: rest) (n + 1) (by simp only [List.length_cons]; omega)
      · have hAeq : charMs 'a' (x :: y :: rest) n
            = charMs 'a' (y :: rest) (n + 1) := by
          rw [charMs, if_neg hx]
        rw [hAeq, abOccs, if_neg (fun hc => hx hc.1)]
        by_cases hxb : x = 'b'
        · subst hxb
          have hBeq : charMs 'b' ('b' :: y :: rest) n
              = (n, n + 1) :: charMs 'b' (y :: rest) (n + 1) := by
            rw [charMs, if_pos rfl]
          rw [hBeq, fuseAll_strip _ n (n + 1) _ (fun se hm => by
            obtain ⟨u, v⟩ := se
            have := charMs_mem 'a' (y :: rest) (n + 1) u v hm
            simp only
            omega)]
          exact ih (y :: rest) (n + 1) (by simp only [List.length_cons]; omega)
        · have hBeq : charMs 'b' (x :: y :: rest) n
              = charMs 'b' (y :: rest) (n + 1) := by
            rw [charMs, if_neg hxb]
          rw [hBeq]
          exact ih (y :: rest) (n + 1) (by simp only [List.length_cons]; omega)

/-- Claim C4: for every haystack, the searcher of `"a".then("b")` yields the
same sequence of matches (successive `next_match()` results) as the literal
pattern "ab": the Then machine run over the "a" and "b" literal children
terminates and its match sequence equals the "ab" literal searcher's match
sequence. -/
theorem then_ab_equiv (h : List Char) :
    ∃ steps,
      thenRun h.length (2 * (strMatches "a".toList h).length + 2)
          (thenInit (strMatches "a".toList h) (strMatches "b".toList h))
        = some steps
      ∧ matchesOf steps = strMatches "ab".toList h := by
  obtain ⟨steps, hrun, hm⟩ := thenRun_trace h.length (charMs 'a' h 0)
    (charMs 'b' h 0) none 0
    (charMs_W1S 'a' h 0)
    (by
      have := charMs_bound 'a' h 0
      simpa using this)
    (by
      show W1S 0 (effOf none (charMs 'b' h 0)) = true
      exact charMs_W1S 'b' h 0)
  refine ⟨steps, ?_, ?_⟩
  · rw [show "a".toList = ['a'] from rfl, show "b".toList = ['b'] from rfl,
      strMatches_single 'a' h, strMatches_single 'b' h]
    exact hrun
  · rw [show "ab".toList = ['a', 'b'] from rfl, strMatches_ab h, hm]
    rw [show effOf none (charMs 'b' h 0) = charMs 'b' h 0 from rfl]
    rw [thenFuse_eq_fuseAll (charMs 'a' h 0) (charMs 'b' h 0) 0
      (charMs_W1S 'a' h 0) (charMs_W1S 'b' h 0)
      (fun se hm' => by
        apply charMs_disjoint 'a' 'b' (by decide) h 0 se.1
        obtain ⟨u, v⟩ := se
        simp only [memStart, List.any_eq_true]
        exact ⟨(u, v), hm', by simp⟩)
      (fun se _ => Nat.zero_le _)]
    exact fuseAll_charMs h.length h 0 (le_refl _)
